import Mathlib

set_option maxRecDepth 10000

/-!
Shallow embedding of the godscore-ci finite-horizon planner core:
the BridgeOrchard environment (src/godscore_ci/envs/bridge_orchard.py) and the
backward-induction solver (src/godscore_ci/planning/value_iteration.py).
Python floats are modelled as exact rationals, raised exceptions as
Except.error, and the two Python dicts V and pi as association lists to which
the solver appends one entry per visited state.
-/

namespace GodscoreCI

/-- Actions are the Python string literals of the source. -/
abbrev Action := String

/-- A state is the Python tuple (t, bridge_intact, orchard_health). -/
abbrev State := ℤ × ℤ × ℤ

/-- The frozen dataclass BridgeOrchardEnv with its default field values. -/
structure BridgeOrchardEnv where
  T : ℤ := 20
  r_harvest : ℚ := 1
  c_repair : ℚ := -(1/5)
  r_burn : ℚ := 5
  r_wait : ℚ := 0

/-- Source method start_state: returns (0, 0, 1). -/
def BridgeOrchardEnv.start_state (_env : BridgeOrchardEnv) : State := (0, 0, 1)

/-- Source method is_terminal: the Python test t >= self.T. -/
def BridgeOrchardEnv.is_terminal (env : BridgeOrchardEnv) (s : State) : Bool :=
  decide (env.T ≤ s.1)

/-- Source method actions: the constant 4-tuple, independent of the state. -/
def BridgeOrchardEnv.actions (_env : BridgeOrchardEnv) (_s : State) : List Action :=
  ["REPAIR", "HARVEST", "BURN", "WAIT"]

/-- Source method reward: terminal states first return 0.0; then one branch per
known action; the fall-through raises ValueError for an unknown action. -/
def BridgeOrchardEnv.reward (env : BridgeOrchardEnv) (s : State) (a : Action) :
    Except String ℚ :=
  if env.is_terminal s then Except.ok 0
  else if a = "REPAIR" then Except.ok env.c_repair
  else if a = "HARVEST" then Except.ok (if s.2.1 = 1 ∧ s.2.2 = 1 then env.r_harvest else 0)
  else if a = "BURN" then Except.ok env.r_burn
  else if a = "WAIT" then Except.ok env.r_wait
  else Except.error ("Unknown action: " ++ a)

/-- Modelled from the spec: the source file src/godscore_ci/envs/bridge_orchard.py is
truncated right after the tokens "def transit", so the body of the transition method is
missing from the source. Spec section 4.1 states: deterministic successor; always
advances t by 1; REPAIR sets b to 1; BURN sets o to 0; HARVEST and WAIT leave (b, o)
unchanged; calling it with an action outside the alphabet is a configuration error. -/
def BridgeOrchardEnv.transition (_env : BridgeOrchardEnv) (s : State) (a : Action) :
    Except String State :=
  if a = "REPAIR" then Except.ok (s.1 + 1, 1, s.2.2)
  else if a = "HARVEST" then Except.ok (s.1 + 1, s.2.1, s.2.2)
  else if a = "BURN" then Except.ok (s.1 + 1, s.2.1, 0)
  else if a = "WAIT" then Except.ok (s.1 + 1, s.2.1, s.2.2)
  else Except.error ("Unknown action: " ++ a)

/-- Modelled from the spec: delta_omega is also missing from the truncated source file.
Spec section 4.1 states: for BURN it equals 1.0 exactly when o(s) == 1 and 0.0 when
o(s) == 0; for REPAIR, HARVEST and WAIT it is 0.0; an unknown action is a configuration
error. The unit tests in src/tests/test_irreversibility_penalty.py agree with this. -/
def BridgeOrchardEnv.delta_omega (_env : BridgeOrchardEnv) (s : State) (a : Action) :
    Except String ℚ :=
  if a = "BURN" then Except.ok (if s.2.2 = 1 then 1 else 0)
  else if a = "REPAIR" then Except.ok 0
  else if a = "HARVEST" then Except.ok 0
  else if a = "WAIT" then Except.ok 0
  else Except.error ("Unknown action: " ++ a)

/-- Lookup in a Python dict modelled as an association list with unique keys. -/
def dictGet {β : Type} : List (State × β) → State → Option β
  | [], _ => none
  | kv :: rest, s => if kv.1 = s then some kv.2 else dictGet rest s

/-- The value table V of the solver: State to float-or-None. -/
abbrev VTable := List (State × Option ℚ)

/-- The policy table pi of the solver: State to action-or-None. -/
abbrev PiTable := List (State × Option Action)

/-- One q-value computation of the solver inner loop, in source order:
r = env.reward(s, a); penalty = lam * env.delta_omega(s, a); u = r - penalty;
s_next = env.transition(s, a); q = u + gamma * V[s_next]. A missing key is the
Python KeyError, a None value the Python TypeError on the arithmetic. -/
def qval (env : BridgeOrchardEnv) (gamma lam : ℚ) (V : VTable) (s : State) (a : Action) :
    Except String ℚ :=
  match env.reward s a with
  | Except.error e => Except.error e
  | Except.ok r =>
    match env.delta_omega s a with
    | Except.error e => Except.error e
    | Except.ok d =>
      match env.transition s a with
      | Except.error e => Except.error e
      | Except.ok s_next =>
        match dictGet V s_next with
        | some (some v) => Except.ok (r - lam * d + gamma * v)
        | some none => Except.error "TypeError: value table holds None"
        | none => Except.error "KeyError: successor state missing"

/-- The solver inner loop over the action tuple, carrying best_value and best_action,
both initialized to None; the update fires iff best_value is None or q > best_value. -/
def actionLoop (env : BridgeOrchardEnv) (gamma lam : ℚ) (V : VTable) (s : State) :
    List Action → Option ℚ → Option Action → Except String (Option ℚ × Option Action)
  | [], best_value, best_action => Except.ok (best_value, best_action)
  | a :: rest, best_value, best_action =>
    match qval env gamma lam V s a with
    | Except.error e => Except.error e
    | Except.ok q =>
      match best_value with
      | none => actionLoop env gamma lam V s rest (some q) (some a)
      | some bv =>
        if bv < q then actionLoop env gamma lam V s rest (some q) (some a)
        else actionLoop env gamma lam V s rest best_value best_action

/-- The body of the solver loop for one state s: run the action loop, then the two
dict writes V[s] = best_value and pi[s] = best_action. -/
def stateStep (env : BridgeOrchardEnv) (gamma lam : ℚ) (acc : VTable × PiTable)
    (s : State) : Except String (VTable × PiTable) :=
  match actionLoop env gamma lam acc.1 s (env.actions s) none none with
  | Except.error e => Except.error e
  | Except.ok r => Except.ok (acc.1 ++ [(s, r.1)], acc.2 ++ [(s, r.2)])

/-- The backward induction loop: Python range(T - 1, -1, -1) visits t = T-1, ..., 0,
and for each t the states (t,0,0), (t,0,1), (t,1,0), (t,1,1) in that order. The
counter n is the number of remaining iterations, so the current t is n - 1. -/
def timeLoop (env : BridgeOrchardEnv) (gamma lam : ℚ) :
    ℕ → VTable × PiTable → Except String (VTable × PiTable)
  | 0, acc => Except.ok acc
  | n + 1, acc =>
    match stateStep env gamma lam acc ((n : ℤ), 0, 0) with
    | Except.error e => Except.error e
    | Except.ok acc1 =>
      match stateStep env gamma lam acc1 ((n : ℤ), 0, 1) with
      | Except.error e => Except.error e
      | Except.ok acc2 =>
        match stateStep env gamma lam acc2 ((n : ℤ), 1, 0) with
        | Except.error e => Except.error e
        | Except.ok acc3 =>
          match stateStep env gamma lam acc3 ((n : ℤ), 1, 1) with
          | Except.error e => Except.error e
          | Except.ok acc4 => timeLoop env gamma lam n acc4

/-- Source function backward_value_iteration: terminal values V[(T,b,o)] = 0.0
written in the order (0,0), (0,1), (1,0), (1,1), then the backward loop. -/
def backward_value_iteration (env : BridgeOrchardEnv) (gamma : ℚ := 49/50)
    (lam : ℚ := 0) : Except String (VTable × PiTable) :=
  let V0 : VTable := [((env.T, 0, 0), some 0), ((env.T, 0, 1), some 0),
                      ((env.T, 1, 0), some 0), ((env.T, 1, 1), some 0)]
  timeLoop env gamma lam env.T.toNat (V0, [])

/-- The policy entry the solver computes at a state: none when the solve fails or the
key is absent; some none when Python stored None; some (some a) for a stored action. -/
def policyAt (env : BridgeOrchardEnv) (gamma lam : ℚ) (s : State) : Option (Option Action) :=
  match backward_value_iteration env gamma lam with
  | Except.ok r => dictGet r.2 s
  | Except.error _ => none

/-- The environment of the headline scenario, the repo regression test and the
experiment script: T=20, r_harvest=1.0, c_repair=-0.2, r_burn=6.0. -/
def headlineEnv : BridgeOrchardEnv :=
  { T := 20, r_harvest := 1, c_repair := -(1/5), r_burn := 6 }

/-- The four states of one time slice, in the iteration order of the solver. -/
def stateRow (t : ℤ) : List State := [(t, 0, 0), (t, 0, 1), (t, 1, 0), (t, 1, 1)]

/-- The states the backward loop visits when n iterations remain, in visit order:
row n-1 first, then the rows below it down to 0. -/
def rowsBelow : ℕ → List State
  | 0 => []
  | n + 1 => stateRow (n : ℤ) ++ rowsBelow n

/-- The sizes of the two returned tables, or none when the solve fails. -/
def tableLengths (env : BridgeOrchardEnv) (gamma lam : ℚ) : Option (ℕ × ℕ) :=
  match backward_value_iteration env gamma lam with
  | Except.ok r => some (r.1.length, r.2.length)
  | Except.error _ => none

/-- A small valid environment used for concrete checks: T=1, default rewards. -/
def smallEnv : BridgeOrchardEnv := { T := 1 }

/-- Claim C10: actions returns the same 4-tuple ("REPAIR", "HARVEST", "BURN", "WAIT"),
in that fixed order, for every state, terminal states included, and in particular the
action set is never empty. -/
theorem c10_actions_constant (env : BridgeOrchardEnv) (s : State) :
    env.actions s = ["REPAIR", "HARVEST", "BURN", "WAIT"] ∧ env.actions s ≠ [] := by
  exact ⟨rfl, by simp [BridgeOrchardEnv.actions]⟩

/-- Claim C5, counterexample: at t = 21 with T = 20 the source is_terminal (which
tests t >= T) returns true although t is not equal to T, so the claim that
is_terminal(s) is true iff t == T for every integer t fails. -/
theorem c5_counter_is_terminal_beyond_T :
    BridgeOrchardEnv.is_terminal { T := 20 } ((21 : ℤ), 0, 1) = true ∧ (21 : ℤ) ≠ 20 := by
  constructor
  · rfl
  · decide

/-- Claim C5, amended: is_terminal(s) returns true iff t >= T; restricted to integers
t in [0, T] this is equivalent to t == T, as the claim states for that range. -/
theorem c5_is_terminal_amended (env : BridgeOrchardEnv) (t b o : ℤ) :
    (env.is_terminal (t, b, o) = true ↔ env.T ≤ t) ∧
    (0 ≤ t → t ≤ env.T → (env.is_terminal (t, b, o) = true ↔ t = env.T)) := by
  constructor
  · simp [BridgeOrchardEnv.is_terminal]
  · intro _ hle
    simp only [BridgeOrchardEnv.is_terminal, decide_eq_true_eq]
    constructor
    · intro hge
      exact le_antisymm hle hge
    · intro h
      exact le_of_eq h.symm

/-- Witness for c5_is_terminal_amended at T=20, t=20 and t=3. -/
theorem c5_is_terminal_amended_witness :
    (BridgeOrchardEnv.is_terminal { T := 20 } ((20 : ℤ), 0, 1) = true ↔ (20 : ℤ) = 20) ∧
    (BridgeOrchardEnv.is_terminal { T := 20 } ((3 : ℤ), 1, 0) = true ↔ (3 : ℤ) = 20) := by
  constructor
  · exact (c5_is_terminal_amended { T := 20 } 20 0 1).2 (by decide) (by decide)
  · exact (c5_is_terminal_amended { T := 20 } 3 1 0).2 (by decide) (by decide)

/-- Claim C4, counterexample: at the terminal state (20,0,0) of the default
environment, reward called with the unknown action "FLY" (not in actions(s)) silently
returns 0.0 instead of failing: the terminal check precedes the unknown-action check. -/
theorem c4_counter_reward_terminal_unknown_action :
    BridgeOrchardEnv.reward { T := 20 } ((20 : ℤ), 0, 0) "FLY" = Except.ok 0 := by
  rfl

/-- Claim C4, amended: for an action a outside actions(s), reward fails with the
descriptive ValueError only on non-terminal states; on terminal states it silently
returns 0.0 for every action, unknown actions included. -/
theorem c4_reward_unknown_action_amended (env : BridgeOrchardEnv) (s : State)
    (a : Action) (ha : a ∉ env.actions s) :
    (env.is_terminal s = true → env.reward s a = Except.ok 0) ∧
    (env.is_terminal s = false → env.reward s a = Except.error ("Unknown action: " ++ a)) := by
  simp only [BridgeOrchardEnv.actions, List.mem_cons, List.not_mem_nil, or_false,
    not_or] at ha
  obtain ⟨h1, h2, h3, h4⟩ := ha
  constructor
  · intro hterm
    simp [BridgeOrchardEnv.reward, hterm]
  · intro hterm
    simp [BridgeOrchardEnv.reward, hterm, h1, h2, h3, h4]

/-- Witness for c4_reward_unknown_action_amended: the unknown action "FLY" at a
terminal and at a non-terminal state of the default environment. -/
theorem c4_reward_unknown_action_amended_witness :
    BridgeOrchardEnv.reward { T := 20 } ((20 : ℤ), 0, 0) "FLY" = Except.ok 0 ∧
    BridgeOrchardEnv.reward { T := 20 } ((0 : ℤ), 0, 1) "FLY" =
      Except.error ("Unknown action: " ++ "FLY") := by
  constructor
  · exact (c4_reward_unknown_action_amended { T := 20 } ((20 : ℤ), 0, 0) "FLY"
      (by decide)).1 (by rfl)
  · exact (c4_reward_unknown_action_amended { T := 20 } ((0 : ℤ), 0, 1) "FLY"
      (by decide)).2 (by rfl)

/-- Claim C8: reward returns 0 for every action at terminal states; on non-terminal
states it returns c_repair for REPAIR, r_harvest for HARVEST exactly when b = 1 and
o = 1 and 0 otherwise, r_burn for BURN unconditionally, and r_wait for WAIT. -/
theorem c8_reward_cases (env : BridgeOrchardEnv) (t b o : ℤ) (a : Action) :
    (env.is_terminal (t, b, o) = true → env.reward (t, b, o) a = Except.ok 0) ∧
    (env.is_terminal (t, b, o) = false →
      env.reward (t, b, o) "REPAIR" = Except.ok env.c_repair ∧
      env.reward (t, b, o) "HARVEST" =
        Except.ok (if b = 1 ∧ o = 1 then env.r_harvest else 0) ∧
      env.reward (t, b, o) "BURN" = Except.ok env.r_burn ∧
      env.reward (t, b, o) "WAIT" = Except.ok env.r_wait) := by
  constructor
  · intro hterm
    simp [BridgeOrchardEnv.reward, hterm]
  · intro hterm
    refine ⟨?_, ?_, ?_, ?_⟩ <;> simp [BridgeOrchardEnv.reward, hterm]

/-- Witness for c8_reward_cases: the default environment at the terminal state
(20,1,1) with action "BURN" and at the non-terminal state (0,1,1). -/
theorem c8_reward_cases_witness :
    BridgeOrchardEnv.reward { T := 20 } ((20 : ℤ), 1, 1) "BURN" = Except.ok 0 ∧
    (BridgeOrchardEnv.reward { T := 20 } ((0 : ℤ), 1, 1) "REPAIR" =
        Except.ok (BridgeOrchardEnv.c_repair { T := 20 }) ∧
      BridgeOrchardEnv.reward { T := 20 } ((0 : ℤ), 1, 1) "HARVEST" =
        Except.ok (if (1 : ℤ) = 1 ∧ (1 : ℤ) = 1 then BridgeOrchardEnv.r_harvest { T := 20 } else 0) ∧
      BridgeOrchardEnv.reward { T := 20 } ((0 : ℤ), 1, 1) "BURN" =
        Except.ok (BridgeOrchardEnv.r_burn { T := 20 }) ∧
      BridgeOrchardEnv.reward { T := 20 } ((0 : ℤ), 1, 1) "WAIT" =
        Except.ok (BridgeOrchardEnv.r_wait { T := 20 })) := by
  constructor
  · exact (c8_reward_cases { T := 20 } 20 1 1 "BURN").1 (by rfl)
  · exact (c8_reward_cases { T := 20 } 0 1 1 "BURN").2 (by rfl)

/-- Claim C1: in the headline environment (T=20, r_harvest=1.0, c_repair=-0.2,
r_burn=6.0) with gamma=0.98, the solver over the spec-modelled transition and
delta_omega maps the start state (0,0,1) to BURN at lambda=0.0 as claimed, but also
to BURN at lambda=3.0, not to REPAIR: the policy shift the claim and the repo
regression test require does not happen under the spec-modelled dynamics, because
r_burn=6 exceeds the one-off penalty 3*1 plus every alternative reward. -/
theorem c1_headline_start_actions :
    policyAt headlineEnv (49/50) 0 ((0 : ℤ), 0, 1) = some (some "BURN") ∧
    policyAt headlineEnv (49/50) 3 ((0 : ℤ), 0, 1) = some (some "BURN") := by
  constructor
  · with_unfolding_all decide
  · with_unfolding_all decide

/-- Claim C2: backward_value_iteration performs no validation of gamma or lam: with
the invalid discount gamma=2 (outside (0,1]) and the invalid penalty lam=-1 it does
not fail but runs to completion and returns fully populated tables (here for T=1). -/
theorem c2_invalid_params_not_rejected :
    backward_value_iteration smallEnv 2 (-1) =
      Except.ok ([(((1 : ℤ), 0, 0), some 0), (((1 : ℤ), 0, 1), some 0),
                  (((1 : ℤ), 1, 0), some 0), (((1 : ℤ), 1, 1), some 0),
                  (((0 : ℤ), 0, 0), some 5), (((0 : ℤ), 0, 1), some 6),
                  (((0 : ℤ), 1, 0), some 5), (((0 : ℤ), 1, 1), some 6)],
                 [(((0 : ℤ), 0, 0), some "BURN"), (((0 : ℤ), 0, 1), some "BURN"),
                  (((0 : ℤ), 1, 0), some "BURN"), (((0 : ℤ), 1, 1), some "BURN")]) := by
  with_unfolding_all rfl

/-- The action loop with a some-accumulator returns either the accumulator (and then
every scanned q-value is at most it) or the first action that strictly improved on
every earlier running best: everything before it scores strictly below the final
value, everything after it at most the final value. -/
theorem actionLoop_acc_first_max (env : BridgeOrchardEnv) (gamma lam : ℚ) (V : VTable)
    (s : State) :
    ∀ (as : List Action) (bq : ℚ) (ba : Action) (q : ℚ) (a : Action),
    actionLoop env gamma lam V s as (some bq) (some ba) = Except.ok (some q, some a) →
    (q = bq ∧ a = ba ∧
      (∀ b ∈ as, ∀ qb, qval env gamma lam V s b = Except.ok qb → qb ≤ q)) ∨
    (∃ pre post, as = pre ++ a :: post ∧ qval env gamma lam V s a = Except.ok q ∧
      bq < q ∧
      (∀ b ∈ pre, ∀ qb, qval env gamma lam V s b = Except.ok qb → qb < q) ∧
      (∀ b ∈ post, ∀ qb, qval env gamma lam V s b = Except.ok qb → qb ≤ q)) := by
  intro as
  induction as with
  | nil =>
    intro bq ba q a hrun
    simp only [actionLoop, Except.ok.injEq, Prod.mk.injEq, Option.some.injEq] at hrun
    left
    exact ⟨hrun.1.symm, hrun.2.symm, by simp⟩
  | cons a0 rest ih =>
    intro bq ba q a hrun
    rcases hq : qval env gamma lam V s a0 with e | q0
    · simp only [actionLoop, hq] at hrun
      exact Except.noConfusion hrun
    · simp only [actionLoop, hq] at hrun
      by_cases hlt : bq < q0
      · rw [if_pos hlt] at hrun
        rcases ih q0 a0 q a hrun with ⟨hqq, haa, hall⟩ |
          ⟨pre, post, heq, hqa, hlt2, hpre, hpost⟩
        · right
          refine ⟨[], rest, by simp [haa], ?_, ?_, by simp, ?_⟩
          · rw [haa, hqq]; exact hq
          · rw [hqq]; exact hlt
          · intro b hb qb hqb; exact hall b hb qb hqb
        · right
          refine ⟨a0 :: pre, post, by simp [heq], hqa, lt_trans hlt hlt2, ?_, hpost⟩
          intro b hb qb hqb
          rcases List.mem_cons.mp hb with rfl | hb'
          · rw [hq] at hqb
            injection hqb with h
            rw [← h]; exact hlt2
          · exact hpre b hb' qb hqb
      · rw [if_neg hlt] at hrun
        push_neg at hlt
        rcases ih bq ba q a hrun with ⟨hqq, haa, hall⟩ |
          ⟨pre, post, heq, hqa, hlt2, hpre, hpost⟩
        · left
          refine ⟨hqq, haa, ?_⟩
          intro b hb qb hqb
          rcases List.mem_cons.mp hb with rfl | hb'
          · rw [hq] at hqb
            injection hqb with h
            rw [← h, hqq]; exact hlt
          · exact hall b hb' qb hqb
        · right
          refine ⟨a0 :: pre, post, by simp [heq], hqa, hlt2, ?_, hpost⟩
          intro b hb qb hqb
          rcases List.mem_cons.mp hb with rfl | hb'
          · rw [hq] at hqb
            injection hqb with h
            rw [← h]; exact lt_of_le_of_lt hlt hlt2
          · exact hpre b hb' qb hqb

/-- Starting from the None-initialized accumulators of the source, a successful
action loop returns the first action of the list attaining the maximal q-value. -/
theorem actionLoop_start_first_max (env : BridgeOrchardEnv) (gamma lam : ℚ) (V : VTable)
    (s : State) (as : List Action) (q : ℚ) (a : Action)
    (hrun : actionLoop env gamma lam V s as none none = Except.ok (some q, some a)) :
    ∃ pre post, as = pre ++ a :: post ∧ qval env gamma lam V s a = Except.ok q ∧
      (∀ b ∈ pre, ∀ qb, qval env gamma lam V s b = Except.ok qb → qb < q) ∧
      (∀ b ∈ post, ∀ qb, qval env gamma lam V s b = Except.ok qb → qb ≤ q) := by
  cases as with
  | nil => simp only [actionLoop, Except.ok.injEq, Prod.mk.injEq] at hrun; cases hrun.1
  | cons a0 rest =>
    rcases hq : qval env gamma lam V s a0 with e | q0
    · simp only [actionLoop, hq] at hrun
      exact Except.noConfusion hrun
    · simp only [actionLoop, hq] at hrun
      rcases actionLoop_acc_first_max env gamma lam V s rest q0 a0 q a hrun with
        ⟨hqq, haa, hall⟩ | ⟨pre, post, heq, hqa, hlt2, hpre, hpost⟩
      · refine ⟨[], rest, by simp [haa], ?_, by simp, ?_⟩
        · rw [haa, hqq]; exact hq
        · intro b hb qb hqb; exact hall b hb qb hqb
      · refine ⟨a0 :: pre, post, by simp [heq], hqa, ?_, hpost⟩
        intro b hb qb hqb
        rcases List.mem_cons.mp hb with rfl | hb'
        · rw [hq] at hqb
          injection hqb with h
          rw [← h]; exact hlt2
        · exact hpre b hb' qb hqb

/-- Claim C6: a successful run of the solver inner loop over the environment's action
enumeration retains exactly the first action whose q-value strictly exceeded the
running best: every action enumerated before the returned one has a strictly smaller
q-value, and no action after it has a strictly larger one, so among exact ties the
earliest action in enumeration order wins. -/
theorem c6_first_strict_improvement_wins (env : BridgeOrchardEnv) (gamma lam : ℚ)
    (V : VTable) (s : State) (q : ℚ) (a : Action)
    (hrun : actionLoop env gamma lam V s (env.actions s) none none =
      Except.ok (some q, some a)) :
    ∃ pre post, env.actions s = pre ++ a :: post ∧
      qval env gamma lam V s a = Except.ok q ∧
      (∀ b ∈ pre, ∀ qb, qval env gamma lam V s b = Except.ok qb → qb < q) ∧
      (∀ b ∈ post, ∀ qb, qval env gamma lam V s b = Except.ok qb → qb ≤ q) :=
  actionLoop_start_first_max env gamma lam V s (env.actions s) q a hrun

/-- The terminal value table for the small T=1 environment, as the solver writes it. -/
def smallV0 : VTable :=
  [(((1 : ℤ), 0, 0), some 0), (((1 : ℤ), 0, 1), some 0),
   (((1 : ℤ), 1, 0), some 0), (((1 : ℤ), 1, 1), some 0)]

/-- Witness for c6_first_strict_improvement_wins: in the small T=1 environment at the
state (0,0,1) the inner loop returns BURN with q-value 5, and the decomposition of
the action tuple around BURN satisfies the first-wins bounds. -/
theorem c6_first_strict_improvement_wins_witness :
    ∃ pre post, BridgeOrchardEnv.actions smallEnv ((0 : ℤ), 0, 1) = pre ++ "BURN" :: post ∧
      qval smallEnv (1/2) 0 smallV0 ((0 : ℤ), 0, 1) "BURN" = Except.ok 5 ∧
      (∀ b ∈ pre, ∀ qb, qval smallEnv (1/2) 0 smallV0 ((0 : ℤ), 0, 1) b = Except.ok qb →
        qb < 5) ∧
      (∀ b ∈ post, ∀ qb, qval smallEnv (1/2) 0 smallV0 ((0 : ℤ), 0, 1) b = Except.ok qb →
        qb ≤ 5) :=
  c6_first_strict_improvement_wins smallEnv (1/2) 0 smallV0 ((0 : ℤ), 0, 1) 5 "BURN"
    (by with_unfolding_all rfl)

/-- A key found in the front part of an association list is found, with the same
value, after appending more entries. -/
theorem dictGet_append_left {β : Type} (l1 l2 : List (State × β)) (s : State) (v : β)
    (h : dictGet l1 s = some v) : dictGet (l1 ++ l2) s = some v := by
  induction l1 with
  | nil => simp [dictGet] at h
  | cons kv rest ih =>
    by_cases hk : kv.1 = s
    · simp only [dictGet, if_pos hk] at h ⊢
      exact h
    · simp only [dictGet, if_neg hk] at h ⊢
      exact ih h

/-- A key absent from the front part of an association list is looked up in the
appended part. -/
theorem dictGet_append_right {β : Type} (l1 l2 : List (State × β)) (s : State)
    (h : dictGet l1 s = none) : dictGet (l1 ++ l2) s = dictGet l2 s := by
  induction l1 with
  | nil => simp
  | cons kv rest ih =>
    by_cases hk : kv.1 = s
    · simp only [dictGet, if_pos hk] at h
      exact Option.noConfusion h
    · simp only [dictGet, if_neg hk] at h ⊢
      exact ih h

/-- A lookup misses when no key of the list equals the queried state. -/
theorem dictGet_eq_none {β : Type} (l : List (State × β)) (s : State)
    (h : ∀ p ∈ l, p.1 ≠ s) : dictGet l s = none := by
  induction l with
  | nil => rfl
  | cons kv rest ih =>
    simp only [dictGet, if_neg (h kv (by simp))]
    exact ih fun p hp => h p (by simp [hp])

/-- Row t of a value table is fully populated with proper rational values. -/
def RowOK (V : VTable) (t : ℤ) : Prop :=
  ∀ b o : ℤ, (b = 0 ∨ b = 1) → (o = 0 ∨ o = 1) → ∃ v : ℚ, dictGet V (t, b, o) = some (some v)

/-- Appending entries preserves a fully populated row. -/
theorem RowOK.append {V : VTable} {t : ℤ} (h : RowOK V t) (ext : VTable) :
    RowOK (V ++ ext) t := by
  intro b o hb ho
  obtain ⟨v, hv⟩ := h b o hb ho
  exact ⟨v, dictGet_append_left V ext _ _ hv⟩

/-- reward succeeds on every action of the action alphabet, at every state. -/
theorem reward_ok_of_mem (env : BridgeOrchardEnv) (s : State) (a : Action)
    (ha : a ∈ env.actions s) : ∃ r : ℚ, env.reward s a = Except.ok r := by
  simp only [BridgeOrchardEnv.actions, List.mem_cons, List.not_mem_nil, or_false] at ha
  unfold BridgeOrchardEnv.reward
  rcases ha with rfl | rfl | rfl | rfl <;> split_ifs <;>
    first
    | exact ⟨_, rfl⟩
    | simp_all

/-- delta_omega succeeds on every action of the action alphabet, at every state. -/
theorem delta_omega_ok_of_mem (env : BridgeOrchardEnv) (s : State) (a : Action)
    (ha : a ∈ env.actions s) : ∃ d : ℚ, env.delta_omega s a = Except.ok d := by
  simp only [BridgeOrchardEnv.actions, List.mem_cons, List.not_mem_nil, or_false] at ha
  unfold BridgeOrchardEnv.delta_omega
  rcases ha with rfl | rfl | rfl | rfl <;> split_ifs <;>
    first
    | exact ⟨_, rfl⟩
    | simp_all

/-- On a state with binary flags, transition with a known action succeeds and lands
in the next time row, with binary flags again. -/
theorem transition_row (env : BridgeOrchardEnv) (t b o : ℤ) (a : Action)
    (ha : a ∈ env.actions (t, b, o)) (hb : b = 0 ∨ b = 1) (ho : o = 0 ∨ o = 1) :
    ∃ b' o' : ℤ, env.transition (t, b, o) a = Except.ok (t + 1, b', o') ∧
      (b' = 0 ∨ b' = 1) ∧ (o' = 0 ∨ o' = 1) := by
  simp only [BridgeOrchardEnv.actions, List.mem_cons, List.not_mem_nil, or_false] at ha
  rcases ha with rfl | rfl | rfl | rfl
  · exact ⟨1, o, by simp [BridgeOrchardEnv.transition], Or.inr rfl, ho⟩
  · exact ⟨b, o, by simp [BridgeOrchardEnv.transition], hb, ho⟩
  · exact ⟨b, 0, by simp [BridgeOrchardEnv.transition], hb, Or.inl rfl⟩
  · exact ⟨b, o, by simp [BridgeOrchardEnv.transition], hb, ho⟩

/-- When the next time row of the table is populated, every q-value at a
binary-flag state with a known action evaluates successfully. -/
theorem qval_ok (env : BridgeOrchardEnv) (gamma lam : ℚ) (V : VTable) (t b o : ℤ)
    (a : Action) (ha : a ∈ env.actions (t, b, o)) (hb : b = 0 ∨ b = 1)
    (ho : o = 0 ∨ o = 1) (hrow : RowOK V (t + 1)) :
    ∃ q : ℚ, qval env gamma lam V (t, b, o) a = Except.ok q := by
  obtain ⟨r, hr⟩ := reward_ok_of_mem env (t, b, o) a ha
  obtain ⟨d, hd⟩ := delta_omega_ok_of_mem env (t, b, o) a ha
  obtain ⟨b', o', htr, hb', ho'⟩ := transition_row env t b o a ha hb ho
  obtain ⟨v, hv⟩ := hrow b' o' hb' ho'
  exact ⟨r - lam * d + gamma * v, by simp [qval, hr, hd, htr, hv]⟩

/-- A successful q-value computation is unaffected by entries appended to the
table, since lookup scans from the front. -/
theorem qval_append (env : BridgeOrchardEnv) (gamma lam : ℚ) (V ext : VTable)
    (s : State) (a : Action) (q : ℚ) (h : qval env gamma lam V s a = Except.ok q) :
    qval env gamma lam (V ++ ext) s a = Except.ok q := by
  rcases hr : env.reward s a with e | r
  · simp only [qval, hr] at h
    exact Except.noConfusion h
  · rcases hd : env.delta_omega s a with e | d
    · simp only [qval, hr, hd] at h
      exact Except.noConfusion h
    · rcases htr : env.transition s a with e | s_next
      · simp only [qval, hr, hd, htr] at h
        exact Except.noConfusion h
      · rcases hv : dictGet V s_next with _ | v
        · simp only [qval, hr, hd, htr, hv] at h
          exact Except.noConfusion h
        · cases v with
          | none =>
            simp only [qval, hr, hd, htr, hv] at h
            exact Except.noConfusion h
          | some v0 =>
            simp only [qval, hr, hd, htr, hv] at h
            simp only [qval, hr, hd, htr,
              dictGet_append_left V ext s_next (some v0) hv]
            exact h

/-- If every q-value on a list of actions succeeds, the loop with a some-accumulator
succeeds, returning the accumulator or one of the listed actions with its q-value. -/
theorem actionLoop_acc_ok (env : BridgeOrchardEnv) (gamma lam : ℚ) (V : VTable)
    (s : State) :
    ∀ (as : List Action) (bq : ℚ) (ba : Action),
    (∀ a ∈ as, ∃ q, qval env gamma lam V s a = Except.ok q) →
    ∃ q a, actionLoop env gamma lam V s as (some bq) (some ba) =
        Except.ok (some q, some a) ∧
      ((q = bq ∧ a = ba) ∨ (a ∈ as ∧ qval env gamma lam V s a = Except.ok q)) := by
  intro as
  induction as with
  | nil =>
    intro bq ba _
    exact ⟨bq, ba, rfl, Or.inl ⟨rfl, rfl⟩⟩
  | cons a0 rest ih =>
    intro bq ba H
    obtain ⟨q0, hq0⟩ := H a0 (by simp)
    by_cases hlt : bq < q0
    · obtain ⟨q, a, hrun, hcase⟩ := ih q0 a0 (fun a hmem => H a (by simp [hmem]))
      refine ⟨q, a, by simp [actionLoop, hq0, if_pos hlt, hrun], ?_⟩
      rcases hcase with ⟨rfl, rfl⟩ | ⟨hmem, hq⟩
      · exact Or.inr ⟨by simp, hq0⟩
      · exact Or.inr ⟨by simp [hmem], hq⟩
    · obtain ⟨q, a, hrun, hcase⟩ := ih bq ba (fun a hmem => H a (by simp [hmem]))
      refine ⟨q, a, by simp [actionLoop, hq0, if_neg hlt, hrun], ?_⟩
      rcases hcase with ⟨rfl, rfl⟩ | ⟨hmem, hq⟩
      · exact Or.inl ⟨rfl, rfl⟩
      · exact Or.inr ⟨by simp [hmem], hq⟩

/-- One unfolding step of the inner loop from the None accumulators. -/
theorem actionLoop_cons_none (env : BridgeOrchardEnv) (gamma lam : ℚ) (V : VTable)
    (s : State) (a : Action) (rest : List Action) (q : ℚ)
    (hq : qval env gamma lam V s a = Except.ok q) :
    actionLoop env gamma lam V s (a :: rest) none none =
      actionLoop env gamma lam V s rest (some q) (some a) := by
  simp only [actionLoop, hq]

/-- If every q-value on the action alphabet succeeds, the inner loop of the solver
succeeds and returns one of the actions together with its q-value. -/
theorem actionLoop_env_ok (env : BridgeOrchardEnv) (gamma lam : ℚ) (V : VTable)
    (s : State) (H : ∀ a ∈ env.actions s, ∃ q, qval env gamma lam V s a = Except.ok q) :
    ∃ q a, actionLoop env gamma lam V s (env.actions s) none none =
        Except.ok (some q, some a) ∧
      a ∈ env.actions s ∧ qval env gamma lam V s a = Except.ok q := by
  have hact : env.actions s = "REPAIR" :: ["HARVEST", "BURN", "WAIT"] := rfl
  rw [hact] at H ⊢
  obtain ⟨q0, hq0⟩ := H "REPAIR" (by simp)
  obtain ⟨q, a, hrun, hcase⟩ :=
    actionLoop_acc_ok env gamma lam V s ["HARVEST", "BURN", "WAIT"] q0 "REPAIR"
      (fun a hmem => H a (by simp at hmem; rcases hmem with rfl | rfl | rfl <;> simp))
  refine ⟨q, a, ?_, ?_, ?_⟩
  · rw [actionLoop_cons_none env gamma lam V s "REPAIR" ["HARVEST", "BURN", "WAIT"] q0 hq0]
    exact hrun
  · rcases hcase with ⟨_, rfl⟩ | ⟨hmem, _⟩
    · simp
    · simp at hmem
      rcases hmem with rfl | rfl | rfl <;> simp
  · rcases hcase with ⟨rfl, rfl⟩ | ⟨_, hq⟩
    · exact hq0
    · exact hq

/-- One state of the backward loop: with the next row populated, stateStep appends
exactly one entry to each table, the policy entry is a known action and the value
entry is its q-value over the incoming table. -/
theorem stateStep_ok (env : BridgeOrchardEnv) (gamma lam : ℚ) (V : VTable)
    (pi : PiTable) (t b o : ℤ) (hb : b = 0 ∨ b = 1) (ho : o = 0 ∨ o = 1)
    (hrow : RowOK V (t + 1)) :
    ∃ (q : ℚ) (a : Action), stateStep env gamma lam (V, pi) (t, b, o) =
        Except.ok (V ++ [((t, b, o), some q)], pi ++ [((t, b, o), some a)]) ∧
      a ∈ env.actions (t, b, o) ∧ qval env gamma lam V (t, b, o) a = Except.ok q := by
  have H : ∀ a ∈ env.actions (t, b, o), ∃ q, qval env gamma lam V (t, b, o) a = Except.ok q :=
    fun a ha => qval_ok env gamma lam V t b o a ha hb ho hrow
  obtain ⟨q, a, hrun, hmem, hq⟩ := actionLoop_env_ok env gamma lam V (t, b, o) H
  exact ⟨q, a, by simp [stateStep, hrun], hmem, hq⟩

/-- Membership in one time slice, componentwise. -/
theorem mem_stateRow_iff (t : ℤ) (s : State) :
    s ∈ stateRow t ↔ s.1 = t ∧ (s.2.1 = 0 ∨ s.2.1 = 1) ∧ (s.2.2 = 0 ∨ s.2.2 = 1) := by
  rcases s with ⟨x, y, z⟩
  simp only [stateRow, List.mem_cons, List.not_mem_nil, or_false, Prod.mk.injEq]
  constructor
  · rintro (⟨h1, h2, h3⟩ | ⟨h1, h2, h3⟩ | ⟨h1, h2, h3⟩ | ⟨h1, h2, h3⟩) <;>
      exact ⟨h1, by simp [h2], by simp [h3]⟩
  · rintro ⟨h1, h2 | h2, h3 | h3⟩ <;> subst h1 <;> subst h2 <;> subst h3 <;> simp

/-- Membership in the rows below n, componentwise. -/
theorem mem_rowsBelow_iff : ∀ (n : ℕ) (s : State),
    s ∈ rowsBelow n ↔ 0 ≤ s.1 ∧ s.1 < (n : ℤ) ∧
      (s.2.1 = 0 ∨ s.2.1 = 1) ∧ (s.2.2 = 0 ∨ s.2.2 = 1) := by
  intro n
  induction n with
  | zero =>
    intro s
    simp only [rowsBelow, List.not_mem_nil, false_iff, not_and]
    intro h1 h2
    exact absurd h2 (by omega)
  | succ n ih =>
    intro s
    simp only [rowsBelow, List.mem_append, mem_stateRow_iff, ih]
    constructor
    · rintro (⟨h1, hflags⟩ | ⟨h0, hlt, hflags⟩)
      · exact ⟨by omega, by push_cast; omega, hflags⟩
      · exact ⟨h0, by push_cast; omega, hflags⟩
    · rintro ⟨h0, hlt, hflags⟩
      by_cases he : s.1 = (n : ℤ)
      · exact Or.inl ⟨he, hflags⟩
      · refine Or.inr ⟨h0, ?_, hflags⟩
        push_cast at hlt
        omega

/-- Each time slice contributes four states. -/
theorem rowsBelow_length (n : ℕ) : (rowsBelow n).length = 4 * n := by
  induction n with
  | zero => rfl
  | succ n ih =>
    simp only [rowsBelow, List.length_append, ih, stateRow, List.length_cons,
      List.length_nil]
    omega

/-- The four states of one time slice are pairwise distinct. -/
theorem stateRow_nodup (t : ℤ) : (stateRow t).Nodup := by
  simp [stateRow, Prod.ext_iff]

/-- The visited rows contain no duplicate state. -/
theorem rowsBelow_nodup (n : ℕ) : (rowsBelow n).Nodup := by
  induction n with
  | zero => simp [rowsBelow]
  | succ n ih =>
    simp only [rowsBelow]
    refine List.Nodup.append (stateRow_nodup _) ih ?_
    intro s hs hs2
    rw [mem_stateRow_iff] at hs
    rw [mem_rowsBelow_iff] at hs2
    have h1 := hs.1
    have h2 := hs2.2.1
    omega

/-- Master invariant of the backward loop: when the row above the remaining range is
populated and the remaining rows are absent, the loop succeeds and appends, in visit
order, exactly one value entry and one policy entry per remaining state; every stored
value is a proper rational, every stored action is a known action, and each value
entry is the q-value of the stored action over the final value table. -/
theorem timeLoop_master (env : BridgeOrchardEnv) (gamma lam : ℚ) :
    ∀ (n : ℕ) (V : VTable) (pi : PiTable),
    (n = 0 ∨ RowOK V (n : ℤ)) →
    (∀ s ∈ rowsBelow n, dictGet V s = none) →
    ∃ (Vx : VTable) (px : PiTable),
      timeLoop env gamma lam n (V, pi) = Except.ok (V ++ Vx, pi ++ px) ∧
      Vx.map Prod.fst = rowsBelow n ∧
      px.map Prod.fst = rowsBelow n ∧
      (∀ p ∈ Vx, ∃ qv : ℚ, p.2 = some qv) ∧
      (∀ p ∈ px, ∃ aa : Action, p.2 = some aa ∧ aa ∈ env.actions p.1 ∧
        ∃ qv : ℚ, dictGet (V ++ Vx) p.1 = some (some qv) ∧
          qval env gamma lam (V ++ Vx) p.1 aa = Except.ok qv) := by
  intro n
  induction n with
  | zero =>
    intro V pi _ _
    refine ⟨[], [], by simp [timeLoop], by simp [rowsBelow], by simp [rowsBelow],
      by simp, by simp⟩
  | succ n ih =>
    intro V pi hrow hdisj
    rcases hrow with h0 | hrow
    · exact absurd h0 (Nat.succ_ne_zero n)
    have hrow' : RowOK V ((n : ℤ) + 1) := by
      have hc : ((n + 1 : ℕ) : ℤ) = (n : ℤ) + 1 := by push_cast; ring
      rwa [hc] at hrow
    have hmemrow : ∀ b o : ℤ, (b = 0 ∨ b = 1) → (o = 0 ∨ o = 1) →
        ((n : ℤ), b, o) ∈ rowsBelow (n + 1) := by
      intro b o hb ho
      rw [mem_rowsBelow_iff]
      exact ⟨by omega, by push_cast; omega, hb, ho⟩
    have hd00 : dictGet V ((n : ℤ), 0, 0) = none :=
      hdisj _ (hmemrow 0 0 (Or.inl rfl) (Or.inl rfl))
    have hd01 : dictGet V ((n : ℤ), 0, 1) = none :=
      hdisj _ (hmemrow 0 1 (Or.inl rfl) (Or.inr rfl))
    have hd10 : dictGet V ((n : ℤ), 1, 0) = none :=
      hdisj _ (hmemrow 1 0 (Or.inr rfl) (Or.inl rfl))
    have hd11 : dictGet V ((n : ℤ), 1, 1) = none :=
      hdisj _ (hmemrow 1 1 (Or.inr rfl) (Or.inr rfl))
    obtain ⟨q00, a00, hstep00, hmem00, hq00⟩ :=
      stateStep_ok env gamma lam V pi (n : ℤ) 0 0 (Or.inl rfl) (Or.inl rfl) hrow'
    obtain ⟨q01, a01, hstep01, hmem01, hq01⟩ :=
      stateStep_ok env gamma lam (V ++ [(((n : ℤ), 0, 0), some q00)])
        (pi ++ [(((n : ℤ), 0, 0), some a00)]) (n : ℤ) 0 1 (Or.inl rfl) (Or.inr rfl)
        (hrow'.append _)
    obtain ⟨q10, a10, hstep10, hmem10, hq10⟩ :=
      stateStep_ok env gamma lam
        (V ++ [(((n : ℤ), 0, 0), some q00)] ++ [(((n : ℤ), 0, 1), some q01)])
        (pi ++ [(((n : ℤ), 0, 0), some a00)] ++ [(((n : ℤ), 0, 1), some a01)])
        (n : ℤ) 1 0 (Or.inr rfl) (Or.inl rfl) ((hrow'.append _).append _)
    obtain ⟨q11, a11, hstep11, hmem11, hq11⟩ :=
      stateStep_ok env gamma lam
        (V ++ [(((n : ℤ), 0, 0), some q00)] ++ [(((n : ℤ), 0, 1), some q01)] ++
          [(((n : ℤ), 1, 0), some q10)])
        (pi ++ [(((n : ℤ), 0, 0), some a00)] ++ [(((n : ℤ), 0, 1), some a01)] ++
          [(((n : ℤ), 1, 0), some a10)])
        (n : ℤ) 1 1 (Or.inr rfl) (Or.inr rfl) (((hrow'.append _).append _).append _)
    set E : VTable := [(((n : ℤ), 0, 0), some q00), (((n : ℤ), 0, 1), some q01),
      (((n : ℤ), 1, 0), some q10), (((n : ℤ), 1, 1), some q11)] with hE
    set P : PiTable := [(((n : ℤ), 0, 0), some a00), (((n : ℤ), 0, 1), some a01),
      (((n : ℤ), 1, 0), some a10), (((n : ℤ), 1, 1), some a11)] with hP
    have hV4 : V ++ [(((n : ℤ), 0, 0), some q00)] ++ [(((n : ℤ), 0, 1), some q01)] ++
        [(((n : ℤ), 1, 0), some q10)] ++ [(((n : ℤ), 1, 1), some q11)] = V ++ E := by
      simp [hE, List.append_assoc]
    have hP4 : pi ++ [(((n : ℤ), 0, 0), some a00)] ++ [(((n : ℤ), 0, 1), some a01)] ++
        [(((n : ℤ), 1, 0), some a10)] ++ [(((n : ℤ), 1, 1), some a11)] = pi ++ P := by
      simp [hP, List.append_assoc]
    have hEget : ∀ b o : ℤ, (b = 0 ∨ b = 1) → (o = 0 ∨ o = 1) →
        ∃ qv : ℚ, dictGet E ((n : ℤ), b, o) = some (some qv) := by
      intro b o hb ho
      rcases hb with rfl | rfl <;> rcases ho with rfl | rfl
      · exact ⟨q00, by simp [hE, dictGet, Prod.ext_iff, -Prod.mk_zero_zero, -Prod.mk_one_one]⟩
      · exact ⟨q01, by simp [hE, dictGet, Prod.ext_iff, -Prod.mk_zero_zero, -Prod.mk_one_one]⟩
      · exact ⟨q10, by simp [hE, dictGet, Prod.ext_iff, -Prod.mk_zero_zero, -Prod.mk_one_one]⟩
      · exact ⟨q11, by simp [hE, dictGet, Prod.ext_iff, -Prod.mk_zero_zero, -Prod.mk_one_one]⟩
    have hrow4 : RowOK (V ++ E) (n : ℤ) := by
      intro b o hb ho
      obtain ⟨qv, hqv⟩ := hEget b o hb ho
      exact ⟨qv, by rw [dictGet_append_right V E _ (hdisj _ (hmemrow b o hb ho))]; exact hqv⟩
    have hEnone : ∀ s ∈ rowsBelow n, dictGet E s = none := by
      intro s hs
      rw [mem_rowsBelow_iff] at hs
      apply dictGet_eq_none
      intro p hp heq
      have hfst : p.1.1 = (n : ℤ) := by
        simp only [hE, List.mem_cons, List.not_mem_nil, or_false] at hp
        rcases hp with rfl | rfl | rfl | rfl <;> rfl
      rw [heq] at hfst
      have := hs.2.1
      omega
    have hdisj4 : ∀ s ∈ rowsBelow n, dictGet (V ++ E) s = none := by
      intro s hs
      rw [dictGet_append_right V E s
        (hdisj s (by rw [rowsBelow]; exact List.mem_append_right _ hs))]
      exact hEnone s hs
    obtain ⟨Vx', px', hloop, hmapV', hmapP', hVsome', hPgood'⟩ :=
      ih (V ++ E) (pi ++ P) (Or.inr hrow4) hdisj4
    refine ⟨E ++ Vx', P ++ px', ?_, ?_, ?_, ?_, ?_⟩
    · simp only [timeLoop, hstep00, hstep01, hstep10, hstep11]
      rw [hV4, hP4]
      rw [hloop]
      simp [hE, hP, List.append_assoc]
    · simp only [List.map_append, hmapV']
      simp [hE, rowsBelow, stateRow]
    · simp only [List.map_append, hmapP']
      simp [hP, rowsBelow, stateRow]
    · intro p hp
      rcases List.mem_append.mp hp with hp | hp
      · simp only [hE, List.mem_cons, List.not_mem_nil, or_false] at hp
        rcases hp with rfl | rfl | rfl | rfl <;> exact ⟨_, rfl⟩
      · exact hVsome' p hp
    · intro p hp
      rcases List.mem_append.mp hp with hp | hp
      · simp only [hP, List.mem_cons, List.not_mem_nil, or_false] at hp
        have hg00 : dictGet (V ++ (E ++ Vx')) ((n : ℤ), 0, 0) = some (some q00) := by
          rw [← List.append_assoc]
          refine dictGet_append_left _ _ _ _ ?_
          rw [dictGet_append_right V E _ hd00]
          simp [hE, dictGet, Prod.ext_iff, -Prod.mk_zero_zero, -Prod.mk_one_one]
        have hg01 : dictGet (V ++ (E ++ Vx')) ((n : ℤ), 0, 1) = some (some q01) := by
          rw [← List.append_assoc]
          refine dictGet_append_left _ _ _ _ ?_
          rw [dictGet_append_right V E _ hd01]
          simp [hE, dictGet, Prod.ext_iff, -Prod.mk_zero_zero, -Prod.mk_one_one]
        have hg10 : dictGet (V ++ (E ++ Vx')) ((n : ℤ), 1, 0) = some (some q10) := by
          rw [← List.append_assoc]
          refine dictGet_append_left _ _ _ _ ?_
          rw [dictGet_append_right V E _ hd10]
          simp [hE, dictGet, Prod.ext_iff, -Prod.mk_zero_zero, -Prod.mk_one_one]
        have hg11 : dictGet (V ++ (E ++ Vx')) ((n : ℤ), 1, 1) = some (some q11) := by
          rw [← List.append_assoc]
          refine dictGet_append_left _ _ _ _ ?_
          rw [dictGet_append_right V E _ hd11]
          simp [hE, dictGet, Prod.ext_iff, -Prod.mk_zero_zero, -Prod.mk_one_one]
        have hqf00 : qval env gamma lam (V ++ (E ++ Vx')) ((n : ℤ), 0, 0) a00 =
            Except.ok q00 := qval_append env gamma lam V (E ++ Vx') _ _ _ hq00
        have hqf01 : qval env gamma lam (V ++ (E ++ Vx')) ((n : ℤ), 0, 1) a01 =
            Except.ok q01 := by
          have h := qval_append env gamma lam (V ++ [(((n : ℤ), 0, 0), some q00)])
            ([(((n : ℤ), 0, 1), some q01), (((n : ℤ), 1, 0), some q10),
              (((n : ℤ), 1, 1), some q11)] ++ Vx') _ _ _ hq01
          rwa [show (V ++ [(((n : ℤ), 0, 0), some q00)]) ++
              ([(((n : ℤ), 0, 1), some q01), (((n : ℤ), 1, 0), some q10),
                (((n : ℤ), 1, 1), some q11)] ++ Vx') = V ++ (E ++ Vx') from by
            simp [hE]] at h
        have hqf10 : qval env gamma lam (V ++ (E ++ Vx')) ((n : ℤ), 1, 0) a10 =
            Except.ok q10 := by
          have h := qval_append env gamma lam
            (V ++ [(((n : ℤ), 0, 0), some q00)] ++ [(((n : ℤ), 0, 1), some q01)])
            ([(((n : ℤ), 1, 0), some q10), (((n : ℤ), 1, 1), some q11)] ++ Vx') _ _ _ hq10
          rwa [show (V ++ [(((n : ℤ), 0, 0), some q00)] ++ [(((n : ℤ), 0, 1), some q01)]) ++
              ([(((n : ℤ), 1, 0), some q10), (((n : ℤ), 1, 1), some q11)] ++ Vx') =
              V ++ (E ++ Vx') from by simp [hE]] at h
        have hqf11 : qval env gamma lam (V ++ (E ++ Vx')) ((n : ℤ), 1, 1) a11 =
            Except.ok q11 := by
          have h := qval_append env gamma lam
            (V ++ [(((n : ℤ), 0, 0), some q00)] ++ [(((n : ℤ), 0, 1), some q01)] ++
              [(((n : ℤ), 1, 0), some q10)])
            ([(((n : ℤ), 1, 1), some q11)] ++ Vx') _ _ _ hq11
          rwa [show (V ++ [(((n : ℤ), 0, 0), some q00)] ++ [(((n : ℤ), 0, 1), some q01)] ++
              [(((n : ℤ), 1, 0), some q10)]) ++ ([(((n : ℤ), 1, 1), some q11)] ++ Vx') =
              V ++ (E ++ Vx') from by simp [hE]] at h
        rcases hp with rfl | rfl | rfl | rfl
        · exact ⟨a00, rfl, hmem00, q00, hg00, hqf00⟩
        · exact ⟨a01, rfl, hmem01, q01, hg01, hqf01⟩
        · exact ⟨a10, rfl, hmem10, q10, hg10, hqf10⟩
        · exact ⟨a11, rfl, hmem11, q11, hg11, hqf11⟩
      · obtain ⟨aa, h1, h2, qv, h3, h4⟩ := hPgood' p hp
        refine ⟨aa, h1, h2, qv, ?_, ?_⟩
        · rwa [List.append_assoc] at h3
        · rwa [List.append_assoc] at h4

/-- The terminal-value table the solver writes before the backward loop. -/
def initV (env : BridgeOrchardEnv) : VTable :=
  [((env.T, 0, 0), some 0), ((env.T, 0, 1), some 0),
   ((env.T, 1, 0), some 0), ((env.T, 1, 1), some 0)]

/-- backward_value_iteration is the backward loop started on the terminal table. -/
theorem bvi_eq (env : BridgeOrchardEnv) (gamma lam : ℚ) :
    backward_value_iteration env gamma lam =
      timeLoop env gamma lam env.T.toNat (initV env, []) := rfl

/-- The terminal table populates the top row of the backward loop range. -/
theorem initV_row (env : BridgeOrchardEnv) :
    env.T.toNat = 0 ∨ RowOK (initV env) (env.T.toNat : ℤ) := by
  by_cases hT : 0 ≤ env.T
  · right
    rw [Int.toNat_of_nonneg hT]
    intro b o hb ho
    rcases hb with rfl | rfl <;> rcases ho with rfl | rfl <;>
      exact ⟨0, by simp [initV, dictGet, Prod.ext_iff, -Prod.mk_zero_zero, -Prod.mk_one_one]⟩
  · left
    omega

/-- The terminal table contains no key of the rows the backward loop will visit. -/
theorem initV_disj (env : BridgeOrchardEnv) :
    ∀ s ∈ rowsBelow env.T.toNat, dictGet (initV env) s = none := by
  intro s hs
  rw [mem_rowsBelow_iff] at hs
  apply dictGet_eq_none
  intro p hp heq
  have hfst : p.1.1 = env.T := by
    simp only [initV, List.mem_cons, List.not_mem_nil, or_false] at hp
    rcases hp with rfl | rfl | rfl | rfl <;> rfl
  rw [heq] at hfst
  have h0 := hs.1
  have h1 := hs.2.1
  omega

/-- The solver always succeeds: it returns the terminal table extended by one value
entry and one policy entry per visited state, all proper, with each policy action a
known action whose q-value over the final table is the stored value. -/
theorem bvi_master (env : BridgeOrchardEnv) (gamma lam : ℚ) :
    ∃ (Vx : VTable) (px : PiTable),
      backward_value_iteration env gamma lam = Except.ok (initV env ++ Vx, px) ∧
      Vx.map Prod.fst = rowsBelow env.T.toNat ∧
      px.map Prod.fst = rowsBelow env.T.toNat ∧
      (∀ p ∈ Vx, ∃ qv : ℚ, p.2 = some qv) ∧
      (∀ p ∈ px, ∃ aa : Action, p.2 = some aa ∧ aa ∈ env.actions p.1 ∧
        ∃ qv : ℚ, dictGet (initV env ++ Vx) p.1 = some (some qv) ∧
          qval env gamma lam (initV env ++ Vx) p.1 aa = Except.ok qv) := by
  obtain ⟨Vx, px, h1, h2, h3, h4, h5⟩ :=
    timeLoop_master env gamma lam env.T.toNat (initV env) [] (initV_row env)
      (initV_disj env)
  refine ⟨Vx, px, ?_, h2, h3, h4, h5⟩
  rw [bvi_eq, h1]
  simp

/-- Claim C9: for every environment and parameters the solve succeeds; every value
entry holds a proper rational (never None), every policy entry holds a known action
(never None), and each stored value is exactly the q-value of the stored action. -/
theorem c9_no_none_stored (env : BridgeOrchardEnv) (gamma lam : ℚ) :
    ∃ V pi, backward_value_iteration env gamma lam = Except.ok (V, pi) ∧
      (∀ p ∈ V, ∃ qv : ℚ, p.2 = some qv) ∧
      (∀ p ∈ pi, ∃ aa : Action, p.2 = some aa ∧ aa ∈ env.actions p.1 ∧
        ∃ qv : ℚ, dictGet V p.1 = some (some qv) ∧
          qval env gamma lam V p.1 aa = Except.ok qv) := by
  obtain ⟨Vx, px, h1, _, _, h4, h5⟩ := bvi_master env gamma lam
  refine ⟨initV env ++ Vx, px, h1, ?_, h5⟩
  intro p hp
  rcases List.mem_append.mp hp with hp | hp
  · simp only [initV, List.mem_cons, List.not_mem_nil, or_false] at hp
    rcases hp with rfl | rfl | rfl | rfl <;> exact ⟨0, rfl⟩
  · exact h4 p hp

/-- Claim C3, counterexample: for the valid environment T=1 with valid gamma=1/2 and
lambda=0 the Value table has 8 = (T+1)*2*2 entries but the Policy table has only 4,
not (T+1)*2*2 = 8: the solver writes no policy entry for terminal states. -/
theorem c3_counter_policy_table_size :
    tableLengths smallEnv (1/2) 0 = some (8, 4) ∧ (4 : ℕ) ≠ (1 + 1) * (2 * 2) := by
  constructor
  · with_unfolding_all rfl
  · decide

/-- Claim C3, amended: for every valid environment and parameters the solve succeeds
with a Value table of exactly (T+1)*2*2 entries whose keys are exactly the states
with 0 <= t <= T and binary flags, without duplicates, and a Policy table of exactly
T*2*2 entries whose keys are exactly the non-terminal states with 0 <= t < T. -/
theorem c3_table_keys_amended (env : BridgeOrchardEnv) (gamma lam : ℚ)
    (hT : 0 < env.T) (hg0 : 0 < gamma) (hg1 : gamma ≤ 1) (hlam : 0 ≤ lam) :
    ∃ V pi, backward_value_iteration env gamma lam = Except.ok (V, pi) ∧
      V.length = (env.T.toNat + 1) * (2 * 2) ∧
      pi.length = env.T.toNat * (2 * 2) ∧
      (V.map Prod.fst).Nodup ∧ (pi.map Prod.fst).Nodup ∧
      (∀ s : State, s ∈ V.map Prod.fst ↔
        0 ≤ s.1 ∧ s.1 ≤ env.T ∧ (s.2.1 = 0 ∨ s.2.1 = 1) ∧ (s.2.2 = 0 ∨ s.2.2 = 1)) ∧
      (∀ s : State, s ∈ pi.map Prod.fst ↔
        0 ≤ s.1 ∧ s.1 < env.T ∧ (s.2.1 = 0 ∨ s.2.1 = 1) ∧ (s.2.2 = 0 ∨ s.2.2 = 1)) := by
  obtain ⟨Vx, px, h1, h2, h3, _, _⟩ := bvi_master env gamma lam
  have hTnat : ((env.T.toNat : ℤ)) = env.T := Int.toNat_of_nonneg (le_of_lt hT)
  have hmap : (initV env ++ Vx).map Prod.fst = stateRow env.T ++ rowsBelow env.T.toNat := by
    rw [List.map_append, h2]
    rfl
  have hVxlen : Vx.length = 4 * env.T.toNat := by
    have hl := congrArg List.length h2
    rwa [List.length_map, rowsBelow_length] at hl
  have hpxlen : px.length = 4 * env.T.toNat := by
    have hl := congrArg List.length h3
    rwa [List.length_map, rowsBelow_length] at hl
  refine ⟨initV env ++ Vx, px, h1, ?_, ?_, ?_, ?_, ?_, ?_⟩
  · rw [List.length_append, hVxlen]
    simp [initV]
    ring
  · rw [hpxlen]
    ring
  · rw [hmap]
    refine List.Nodup.append (stateRow_nodup _) (rowsBelow_nodup _) ?_
    intro s hs hs2
    rw [mem_stateRow_iff] at hs
    rw [mem_rowsBelow_iff] at hs2
    have ha := hs.1
    have hb := hs2.2.1
    omega
  · rw [h3]
    exact rowsBelow_nodup _
  · intro s
    rw [hmap, List.mem_append, mem_stateRow_iff, mem_rowsBelow_iff, hTnat]
    constructor
    · rintro (⟨h1', hflags⟩ | ⟨h0, hlt, hflags⟩)
      · exact ⟨by omega, by omega, hflags⟩
      · exact ⟨h0, by omega, hflags⟩
    · rintro ⟨h0, hle, hflags⟩
      by_cases he : s.1 = env.T
      · exact Or.inl ⟨he, hflags⟩
      · exact Or.inr ⟨h0, by omega, hflags⟩
  · intro s
    rw [h3, mem_rowsBelow_iff, hTnat]

/-- Witness for c3_table_keys_amended at the small valid environment T=1 with
gamma=1/2 and lambda=0. -/
theorem c3_table_keys_amended_witness :
    ∃ V pi, backward_value_iteration smallEnv (1/2) 0 = Except.ok (V, pi) ∧
      V.length = (smallEnv.T.toNat + 1) * (2 * 2) ∧
      pi.length = smallEnv.T.toNat * (2 * 2) ∧
      (V.map Prod.fst).Nodup ∧ (pi.map Prod.fst).Nodup ∧
      (∀ s : State, s ∈ V.map Prod.fst ↔
        0 ≤ s.1 ∧ s.1 ≤ smallEnv.T ∧ (s.2.1 = 0 ∨ s.2.1 = 1) ∧ (s.2.2 = 0 ∨ s.2.2 = 1)) ∧
      (∀ s : State, s ∈ pi.map Prod.fst ↔
        0 ≤ s.1 ∧ s.1 < smallEnv.T ∧ (s.2.1 = 0 ∨ s.2.1 = 1) ∧ (s.2.2 = 0 ∨ s.2.2 = 1)) :=
  c3_table_keys_amended smallEnv (1/2) 0 (by decide) (by norm_num) (by norm_num)
    (by norm_num)

/-- The spec irreversibility signal is nonnegative wherever it is defined. -/
theorem delta_omega_nonneg (env : BridgeOrchardEnv) (s : State) (a : Action) (d : ℚ)
    (h : env.delta_omega s a = Except.ok d) : 0 ≤ d := by
  unfold BridgeOrchardEnv.delta_omega at h
  split_ifs at h
  all_goals
    first
    | exact Except.noConfusion h
    | (injection h with h; subst h; norm_num)

/-- Pointwise comparison of two value tables: every value the first table holds is a
proper rational bounded below by a proper rational the second table holds at the same
key, and keys absent from the first are absent from the second. -/
def TableLE (V1 V2 : VTable) : Prop :=
  (∀ s : State, ∀ v, dictGet V1 s = some v → ∃ q1 : ℚ, v = some q1 ∧
    ∃ q2 : ℚ, dictGet V2 s = some (some q2) ∧ q2 ≤ q1) ∧
  (∀ s : State, dictGet V1 s = none → dictGet V2 s = none)

/-- Lookup in a singleton table. -/
theorem dictGet_single {β : Type} (k : State) (v : β) (s : State) :
    dictGet [(k, v)] s = if k = s then some v else none := by
  simp [dictGet]

/-- Appending one related entry to two related tables keeps them related, provided
the values appended are proper and ordered. -/
theorem TableLE.extend {V1 V2 : VTable} (hrel : TableLE V1 V2) (s : State)
    (q1 q2 : ℚ) (hle : q2 ≤ q1) :
    TableLE (V1 ++ [(s, some q1)]) (V2 ++ [(s, some q2)]) := by
  constructor
  · intro s' v hv
    rcases hv1 : dictGet V1 s' with _ | v1
    · rw [dictGet_append_right V1 _ s' hv1, dictGet_single] at hv
      rw [dictGet_append_right V2 _ s' (hrel.2 s' hv1), dictGet_single]
      by_cases he : s = s'
      · rw [if_pos he] at hv ⊢
        injection hv with hv
        exact ⟨q1, hv.symm, q2, rfl, hle⟩
      · rw [if_neg he] at hv
        exact Option.noConfusion hv
    · rw [dictGet_append_left V1 _ s' v1 hv1] at hv
      injection hv with hv
      obtain ⟨x1, hx1, x2, hx2, hx⟩ := hrel.1 s' v1 hv1
      exact ⟨x1, by rw [← hv]; exact hx1, x2, dictGet_append_left V2 _ s' _ hx2, hx⟩
  · intro s' hnone
    rcases hv1 : dictGet V1 s' with _ | v1
    · rw [dictGet_append_right V1 _ s' hv1, dictGet_single] at hnone
      rw [dictGet_append_right V2 _ s' (hrel.2 s' hv1), dictGet_single]
      by_cases he : s = s'
      · rw [if_pos he] at hnone
        exact Option.noConfusion hnone
      · rw [if_neg he]
    · rw [dictGet_append_left V1 _ s' v1 hv1] at hnone
      exact Option.noConfusion hnone

/-- A successful q-value under the smaller penalty bounds, from above, the q-value of
the same action under a larger penalty over a pointwise smaller value table. -/
theorem qval_mono (env : BridgeOrchardEnv) (gamma lam1 lam2 : ℚ) (V1 V2 : VTable)
    (s : State) (a : Action) (hg : 0 ≤ gamma) (hl : lam1 ≤ lam2)
    (hrel : TableLE V1 V2) (q1 : ℚ)
    (h1 : qval env gamma lam1 V1 s a = Except.ok q1) :
    ∃ q2, qval env gamma lam2 V2 s a = Except.ok q2 ∧ q2 ≤ q1 := by
  rcases hr : env.reward s a with e | r
  · simp only [qval, hr] at h1
    exact Except.noConfusion h1
  rcases hd : env.delta_omega s a with e | d
  · simp only [qval, hr, hd] at h1
    exact Except.noConfusion h1
  rcases htr : env.transition s a with e | s_next
  · simp only [qval, hr, hd, htr] at h1
    exact Except.noConfusion h1
  rcases hv : dictGet V1 s_next with _ | v
  · simp only [qval, hr, hd, htr, hv] at h1
    exact Except.noConfusion h1
  obtain ⟨x1, hx1, x2, hx2, hx⟩ := hrel.1 s_next v hv
  subst hx1
  simp only [qval, hr, hd, htr, hv] at h1
  injection h1 with h1
  refine ⟨r - lam2 * d + gamma * x2, by simp [qval, hr, hd, htr, hx2], ?_⟩
  rw [← h1]
  have hdge : 0 ≤ d := delta_omega_nonneg env s a d hd
  have hp : lam1 * d ≤ lam2 * d := mul_le_mul_of_nonneg_right hl hdge
  have hgx : gamma * x2 ≤ gamma * x1 := mul_le_mul_of_nonneg_left hx hg
  linarith

/-- Comparison of the running best values of the two solver runs. -/
def OptLE (x y : Option ℚ) : Prop :=
  (x = none ∧ y = none) ∨ (∃ q1 q2 : ℚ, x = some q1 ∧ y = some q2 ∧ q2 ≤ q1)

/-- The inner loop is monotone: over a pointwise smaller table and a larger penalty,
a successful loop stays successful and its best value can only drop. -/
theorem actionLoop_mono (env : BridgeOrchardEnv) (gamma lam1 lam2 : ℚ)
    (V1 V2 : VTable) (s : State) (hg : 0 ≤ gamma) (hl : lam1 ≤ lam2)
    (hrel : TableLE V1 V2) :
    ∀ (as : List Action) (bv1 bv2 : Option ℚ) (ba1 ba2 : Option Action),
    OptLE bv1 bv2 →
    ∀ r1, actionLoop env gamma lam1 V1 s as bv1 ba1 = Except.ok r1 →
    ∃ r2, actionLoop env gamma lam2 V2 s as bv2 ba2 = Except.ok r2 ∧ OptLE r1.1 r2.1 := by
  intro as
  induction as with
  | nil =>
    intro bv1 bv2 ba1 ba2 hacc r1 hrun
    simp only [actionLoop, Except.ok.injEq] at hrun
    exact ⟨(bv2, ba2), rfl, by rw [← hrun]; exact hacc⟩
  | cons a rest ih =>
    intro bv1 bv2 ba1 ba2 hacc r1 hrun
    rcases hq1 : qval env gamma lam1 V1 s a with e | qa1
    · simp only [actionLoop, hq1] at hrun
      exact Except.noConfusion hrun
    obtain ⟨qa2, hq2, hqa⟩ :=
      qval_mono env gamma lam1 lam2 V1 V2 s a hg hl hrel qa1 hq1
    rcases hacc with ⟨hb1, hb2⟩ | ⟨b1, b2, hb1, hb2, hb⟩
    · subst hb1; subst hb2
      simp only [actionLoop, hq1] at hrun
      obtain ⟨r2, hrun2, hres⟩ := ih (some qa1) (some qa2) (some a) (some a)
        (Or.inr ⟨qa1, qa2, rfl, rfl, hqa⟩) r1 hrun
      refine ⟨r2, ?_, hres⟩
      simp only [actionLoop, hq2]
      exact hrun2
    · subst hb1; subst hb2
      simp only [actionLoop, hq1] at hrun
      by_cases h1lt : b1 < qa1
      · rw [if_pos h1lt] at hrun
        by_cases h2lt : b2 < qa2
        · obtain ⟨r2, hrun2, hres⟩ := ih (some qa1) (some qa2) (some a) (some a)
            (Or.inr ⟨qa1, qa2, rfl, rfl, hqa⟩) r1 hrun
          refine ⟨r2, ?_, hres⟩
          simp only [actionLoop, hq2]
          rw [if_pos h2lt]
          exact hrun2
        · obtain ⟨r2, hrun2, hres⟩ := ih (some qa1) (some b2) (some a) ba2
            (Or.inr ⟨qa1, b2, rfl, rfl, le_trans hb (le_of_lt h1lt)⟩) r1 hrun
          refine ⟨r2, ?_, hres⟩
          simp only [actionLoop, hq2]
          rw [if_neg h2lt]
          exact hrun2
      · rw [if_neg h1lt] at hrun
        by_cases h2lt : b2 < qa2
        · obtain ⟨r2, hrun2, hres⟩ := ih (some b1) (some qa2) ba1 (some a)
            (Or.inr ⟨b1, qa2, rfl, rfl, le_trans hqa (not_lt.mp h1lt)⟩) r1 hrun
          refine ⟨r2, ?_, hres⟩
          simp only [actionLoop, hq2]
          rw [if_pos h2lt]
          exact hrun2
        · obtain ⟨r2, hrun2, hres⟩ := ih (some b1) (some b2) ba1 ba2
            (Or.inr ⟨b1, b2, rfl, rfl, hb⟩) r1 hrun
          refine ⟨r2, ?_, hres⟩
          simp only [actionLoop, hq2]
          rw [if_neg h2lt]
          exact hrun2

/-- A some-accumulator can only produce a some result. -/
theorem actionLoop_some_acc (env : BridgeOrchardEnv) (gamma lam : ℚ) (V : VTable)
    (s : State) :
    ∀ (as : List Action) (bq : ℚ) (ba : Action) (r : Option ℚ × Option Action),
    actionLoop env gamma lam V s as (some bq) (some ba) = Except.ok r →
    ∃ q a, r = (some q, some a) := by
  intro as
  induction as with
  | nil =>
    intro bq ba r hrun
    simp only [actionLoop, Except.ok.injEq] at hrun
    exact ⟨bq, ba, hrun.symm⟩
  | cons a rest ih =>
    intro bq ba r hrun
    rcases hq : qval env gamma lam V s a with e | q0
    · simp only [actionLoop, hq] at hrun
      exact Except.noConfusion hrun
    · simp only [actionLoop, hq] at hrun
      by_cases hlt : bq < q0
      · rw [if_pos hlt] at hrun
        exact ih q0 a r hrun
      · rw [if_neg hlt] at hrun
        exact ih bq ba r hrun

/-- A successful run from the None accumulators over a nonempty action list produces
a some best value and a some best action. -/
theorem actionLoop_none_result (env : BridgeOrchardEnv) (gamma lam : ℚ) (V : VTable)
    (s : State) (a0 : Action) (rest : List Action) (r : Option ℚ × Option Action)
    (hrun : actionLoop env gamma lam V s (a0 :: rest) none none = Except.ok r) :
    ∃ q a, r = (some q, some a) := by
  rcases hq : qval env gamma lam V s a0 with e | q0
  · simp only [actionLoop, hq] at hrun
    exact Except.noConfusion hrun
  · simp only [actionLoop, hq] at hrun
    exact actionLoop_some_acc env gamma lam V s rest q0 a0 r hrun

/-- The backward loop is monotone in the penalty weight: a successful run with lam1
forces the run with lam2 >= lam1 to succeed with a pointwise smaller value table. -/
theorem timeLoop_mono (env : BridgeOrchardEnv) (gamma lam1 lam2 : ℚ)
    (hg : 0 ≤ gamma) (hl : lam1 ≤ lam2) :
    ∀ (n : ℕ) (V1 V2 : VTable) (pi1 pi2 : PiTable),
    TableLE V1 V2 →
    ∀ W1 p1, timeLoop env gamma lam1 n (V1, pi1) = Except.ok (W1, p1) →
    ∃ W2 p2, timeLoop env gamma lam2 n (V2, pi2) = Except.ok (W2, p2) ∧ TableLE W1 W2 := by
  intro n
  induction n with
  | zero =>
    intro V1 V2 pi1 pi2 hrel W1 p1 hrun
    simp only [timeLoop, Except.ok.injEq, Prod.mk.injEq] at hrun
    exact ⟨V2, pi2, rfl, by rw [← hrun.1]; exact hrel⟩
  | succ n ih =>
    intro V1 V2 pi1 pi2 hrel W1 p1 hrun
    have hstep : ∀ (X1 X2 : VTable) (Y1 Y2 : PiTable) (b o : ℤ), TableLE X1 X2 →
        ∀ Z1, stateStep env gamma lam1 (X1, Y1) ((n : ℤ), b, o) = Except.ok Z1 →
        ∃ q1 a1 q2 a2, Z1 = (X1 ++ [(((n : ℤ), b, o), some q1)],
            Y1 ++ [(((n : ℤ), b, o), some a1)]) ∧
          stateStep env gamma lam2 (X2, Y2) ((n : ℤ), b, o) =
            Except.ok (X2 ++ [(((n : ℤ), b, o), some q2)],
              Y2 ++ [(((n : ℤ), b, o), some a2)]) ∧ q2 ≤ q1 := by
      intro X1 X2 Y1 Y2 b o hrelX Z1 hZ1
      rcases hal1 : actionLoop env gamma lam1 X1 ((n : ℤ), b, o)
          (env.actions ((n : ℤ), b, o)) none none with e | r1
      · simp only [stateStep, hal1] at hZ1
        exact Except.noConfusion hZ1
      obtain ⟨q1, a1, hr1⟩ :=
        actionLoop_none_result env gamma lam1 X1 ((n : ℤ), b, o) "REPAIR"
          ["HARVEST", "BURN", "WAIT"] r1 hal1
      obtain ⟨r2, hal2, hres⟩ :=
        actionLoop_mono env gamma lam1 lam2 X1 X2 ((n : ℤ), b, o) hg hl hrelX
          (env.actions ((n : ℤ), b, o)) none none none none (Or.inl ⟨rfl, rfl⟩) r1 hal1
      subst hr1
      rcases hres with ⟨hx, _⟩ | ⟨x1, x2, hx1, hx2, hx⟩
      · exact Option.noConfusion hx
      · obtain ⟨q2, a2, hr2⟩ := actionLoop_none_result env gamma lam2 X2
          ((n : ℤ), b, o) "REPAIR" ["HARVEST", "BURN", "WAIT"] r2 hal2
        subst hr2
        have hq1x : q1 = x1 := Option.some.inj hx1
        have hq2x : q2 = x2 := Option.some.inj hx2
        simp only [stateStep, hal1, Except.ok.injEq] at hZ1
        refine ⟨q1, a1, q2, a2, hZ1.symm, ?_, ?_⟩
        · simp only [stateStep, hal2]
        · rw [hq1x, hq2x]
          exact hx
    rcases hs1 : stateStep env gamma lam1 (V1, pi1) ((n : ℤ), 0, 0) with e | Z1
    · simp only [timeLoop, hs1] at hrun
      exact Except.noConfusion hrun
    obtain ⟨q1a, a1a, q2a, a2a, hZ1eq, hs2, hqa⟩ :=
      hstep V1 V2 pi1 pi2 0 0 hrel Z1 hs1
    subst hZ1eq
    rcases hs1b : stateStep env gamma lam1
        (V1 ++ [(((n : ℤ), 0, 0), some q1a)], pi1 ++ [(((n : ℤ), 0, 0), some a1a)])
        ((n : ℤ), 0, 1) with e | Z2
    · simp only [timeLoop, hs1, hs1b] at hrun
      exact Except.noConfusion hrun
    obtain ⟨q1b, a1b, q2b, a2b, hZ2eq, hs2b, hqb⟩ :=
      hstep (V1 ++ [(((n : ℤ), 0, 0), some q1a)]) (V2 ++ [(((n : ℤ), 0, 0), some q2a)])
        (pi1 ++ [(((n : ℤ), 0, 0), some a1a)]) (pi2 ++ [(((n : ℤ), 0, 0), some a2a)])
        0 1 (hrel.extend ((n : ℤ), 0, 0) q1a q2a hqa) Z2 hs1b
    subst hZ2eq
    rcases hs1c : stateStep env gamma lam1
        (V1 ++ [(((n : ℤ), 0, 0), some q1a)] ++ [(((n : ℤ), 0, 1), some q1b)],
          pi1 ++ [(((n : ℤ), 0, 0), some a1a)] ++ [(((n : ℤ), 0, 1), some a1b)])
        ((n : ℤ), 1, 0) with e | Z3
    · simp only [timeLoop, hs1, hs1b, hs1c] at hrun
      exact Except.noConfusion hrun
    obtain ⟨q1c, a1c, q2c, a2c, hZ3eq, hs2c, hqc⟩ :=
      hstep
        (V1 ++ [(((n : ℤ), 0, 0), some q1a)] ++ [(((n : ℤ), 0, 1), some q1b)])
        (V2 ++ [(((n : ℤ), 0, 0), some q2a)] ++ [(((n : ℤ), 0, 1), some q2b)])
        (pi1 ++ [(((n : ℤ), 0, 0), some a1a)] ++ [(((n : ℤ), 0, 1), some a1b)])
        (pi2 ++ [(((n : ℤ), 0, 0), some a2a)] ++ [(((n : ℤ), 0, 1), some a2b)])
        1 0
        ((hrel.extend ((n : ℤ), 0, 0) q1a q2a hqa).extend ((n : ℤ), 0, 1) q1b q2b hqb)
        Z3 hs1c
    subst hZ3eq
    rcases hs1d : stateStep env gamma lam1
        (V1 ++ [(((n : ℤ), 0, 0), some q1a)] ++ [(((n : ℤ), 0, 1), some q1b)] ++
            [(((n : ℤ), 1, 0), some q1c)],
          pi1 ++ [(((n : ℤ), 0, 0), some a1a)] ++ [(((n : ℤ), 0, 1), some a1b)] ++
            [(((n : ℤ), 1, 0), some a1c)])
        ((n : ℤ), 1, 1) with e | Z4
    · simp only [timeLoop, hs1, hs1b, hs1c, hs1d] at hrun
      exact Except.noConfusion hrun
    obtain ⟨q1d, a1d, q2d, a2d, hZ4eq, hs2d, hqd⟩ :=
      hstep
        (V1 ++ [(((n : ℤ), 0, 0), some q1a)] ++ [(((n : ℤ), 0, 1), some q1b)] ++
          [(((n : ℤ), 1, 0), some q1c)])
        (V2 ++ [(((n : ℤ), 0, 0), some q2a)] ++ [(((n : ℤ), 0, 1), some q2b)] ++
          [(((n : ℤ), 1, 0), some q2c)])
        (pi1 ++ [(((n : ℤ), 0, 0), some a1a)] ++ [(((n : ℤ), 0, 1), some a1b)] ++
          [(((n : ℤ), 1, 0), some a1c)])
        (pi2 ++ [(((n : ℤ), 0, 0), some a2a)] ++ [(((n : ℤ), 0, 1), some a2b)] ++
          [(((n : ℤ), 1, 0), some a2c)])
        1 1
        (((hrel.extend ((n : ℤ), 0, 0) q1a q2a hqa).extend ((n : ℤ), 0, 1) q1b q2b
          hqb).extend ((n : ℤ), 1, 0) q1c q2c hqc)
        Z4 hs1d
    subst hZ4eq
    simp only [timeLoop, hs1, hs1b, hs1c, hs1d] at hrun
    obtain ⟨W2, p2, hrun2, hrelW⟩ := ih
      (V1 ++ [(((n : ℤ), 0, 0), some q1a)] ++ [(((n : ℤ), 0, 1), some q1b)] ++
        [(((n : ℤ), 1, 0), some q1c)] ++ [(((n : ℤ), 1, 1), some q1d)])
      (V2 ++ [(((n : ℤ), 0, 0), some q2a)] ++ [(((n : ℤ), 0, 1), some q2b)] ++
        [(((n : ℤ), 1, 0), some q2c)] ++ [(((n : ℤ), 1, 1), some q2d)])
      (pi1 ++ [(((n : ℤ), 0, 0), some a1a)] ++ [(((n : ℤ), 0, 1), some a1b)] ++
        [(((n : ℤ), 1, 0), some a1c)] ++ [(((n : ℤ), 1, 1), some a1d)])
      (pi2 ++ [(((n : ℤ), 0, 0), some a2a)] ++ [(((n : ℤ), 0, 1), some a2b)] ++
        [(((n : ℤ), 1, 0), some a2c)] ++ [(((n : ℤ), 1, 1), some a2d)])
      ((((hrel.extend ((n : ℤ), 0, 0) q1a q2a hqa).extend ((n : ℤ), 0, 1) q1b q2b
        hqb).extend ((n : ℤ), 1, 0) q1c q2c hqc).extend ((n : ℤ), 1, 1) q1d q2d hqd)
      W1 p1 hrun
    refine ⟨W2, p2, ?_, hrelW⟩
    simp only [timeLoop, hs2, hs2b, hs2c, hs2d]
    exact hrun2

/-- The terminal table is related to itself. -/
theorem TableLE_initV (env : BridgeOrchardEnv) : TableLE (initV env) (initV env) := by
  constructor
  · intro s v hv
    have hzero : v = some 0 := by
      simp only [initV, dictGet] at hv
      split_ifs at hv <;> first | {injection hv with hv; rw [← hv]} | exact Option.noConfusion hv
    exact ⟨0, hzero, 0, by rw [hv, hzero], le_refl 0⟩
  · intro s hnone
    exact hnone

/-- Monotone penalty at the level of the solver: value tables computed under a larger
penalty weight are pointwise bounded by those computed under a smaller one. -/
theorem bvi_mono (env : BridgeOrchardEnv) (gamma lam1 lam2 : ℚ)
    (hg : 0 ≤ gamma) (hl : lam1 ≤ lam2) (V1 : VTable) (p1 : PiTable)
    (V2 : VTable) (p2 : PiTable)
    (h1 : backward_value_iteration env gamma lam1 = Except.ok (V1, p1))
    (h2 : backward_value_iteration env gamma lam2 = Except.ok (V2, p2)) :
    TableLE V1 V2 := by
  rw [bvi_eq] at h1 h2
  obtain ⟨W2, p2', hrun2, hrelW⟩ :=
    timeLoop_mono env gamma lam1 lam2 hg hl env.T.toNat (initV env) (initV env) [] []
      (TableLE_initV env) V1 p1 h1
  rw [h2] at hrun2
  injection hrun2 with hrun2
  injection hrun2 with hrun2a hrun2b
  rwa [hrun2a]

/-- Claim C7: for a fixed environment and gamma, with 0 <= lam1 < lam2 and an action
with positive delta_omega at s, the utility r - lam*delta strictly decreases from
lam1 to lam2, and the q-value of that action computed by the solver (against the
value table of its own run) does not increase. -/
theorem c7_penalty_monotone (env : BridgeOrchardEnv) (gamma lam1 lam2 : ℚ)
    (s : State) (a : Action) (d r q1 q2 : ℚ) (V1 : VTable) (p1 : PiTable)
    (V2 : VTable) (p2 : PiTable)
    (hg0 : 0 < gamma) (hg1 : gamma ≤ 1) (hl0 : 0 ≤ lam1) (hl : lam1 < lam2)
    (hd : env.delta_omega s a = Except.ok d) (hdpos : 0 < d)
    (hr : env.reward s a = Except.ok r)
    (h1 : backward_value_iteration env gamma lam1 = Except.ok (V1, p1))
    (h2 : backward_value_iteration env gamma lam2 = Except.ok (V2, p2))
    (hq1 : qval env gamma lam1 V1 s a = Except.ok q1)
    (hq2 : qval env gamma lam2 V2 s a = Except.ok q2) :
    r - lam2 * d < r - lam1 * d ∧ q2 ≤ q1 := by
  constructor
  · have := mul_lt_mul_of_pos_right hl hdpos
    linarith
  · have hrel := bvi_mono env gamma lam1 lam2 (le_of_lt hg0) (le_of_lt hl) V1 p1 V2 p2 h1 h2
    obtain ⟨q2', hq2', hle⟩ :=
      qval_mono env gamma lam1 lam2 V1 V2 s a (le_of_lt hg0) (le_of_lt hl) hrel q1 hq1
    rw [hq2] at hq2'
    injection hq2' with h
    rwa [h]

/-- The value table the solver computes for the small T=1 environment with gamma=1/2
and lambda=0. -/
def smallV1 : VTable :=
  [(((1 : ℤ), 0, 0), some 0), (((1 : ℤ), 0, 1), some 0),
   (((1 : ℤ), 1, 0), some 0), (((1 : ℤ), 1, 1), some 0),
   (((0 : ℤ), 0, 0), some 5), (((0 : ℤ), 0, 1), some 5),
   (((0 : ℤ), 1, 0), some 5), (((0 : ℤ), 1, 1), some 5)]

/-- The policy table the solver computes for the small T=1 environment with gamma=1/2
and lambda=0. -/
def smallP1 : PiTable :=
  [(((0 : ℤ), 0, 0), some "BURN"), (((0 : ℤ), 0, 1), some "BURN"),
   (((0 : ℤ), 1, 0), some "BURN"), (((0 : ℤ), 1, 1), some "BURN")]

/-- The value table the solver computes for the small T=1 environment with gamma=1/2
and lambda=3: burning a live orchard now nets 5 - 3 = 2. -/
def smallV2 : VTable :=
  [(((1 : ℤ), 0, 0), some 0), (((1 : ℤ), 0, 1), some 0),
   (((1 : ℤ), 1, 0), some 0), (((1 : ℤ), 1, 1), some 0),
   (((0 : ℤ), 0, 0), some 5), (((0 : ℤ), 0, 1), some 2),
   (((0 : ℤ), 1, 0), some 5), (((0 : ℤ), 1, 1), some 2)]

/-- The policy table the solver computes for the small T=1 environment with gamma=1/2
and lambda=3. -/
def smallP2 : PiTable :=
  [(((0 : ℤ), 0, 0), some "BURN"), (((0 : ℤ), 0, 1), some "BURN"),
   (((0 : ℤ), 1, 0), some "BURN"), (((0 : ℤ), 1, 1), some "BURN")]

/-- Witness for c7_penalty_monotone: small T=1 environment, gamma=1/2, lambda 0
versus 3, action BURN at the start state (0,0,1): utility drops from 5 to 2 and the
q-value drops from 5 to 2. -/
theorem c7_penalty_monotone_witness :
    (5 : ℚ) - 3 * 1 < 5 - 0 * 1 ∧ (2 : ℚ) ≤ 5 :=
  c7_penalty_monotone smallEnv (1/2) 0 3 ((0 : ℤ), 0, 1) "BURN" 1 5 5 2
    smallV1 smallP1 smallV2 smallP2
    (by norm_num) (by norm_num) (by norm_num) (by norm_num)
    (by with_unfolding_all rfl) (by norm_num) (by with_unfolding_all rfl)
    (by with_unfolding_all rfl) (by with_unfolding_all rfl)
    (by with_unfolding_all rfl) (by with_unfolding_all rfl)

end GodscoreCI
